import Mathlib

/-!
Shallow embedding of the `fastlangml` / `fastlangid` conversation-context,
proper-noun-filter and detection-cache components, with theorems checking the
repository's specification against the code.

Python floats are modelled as rationals (`ℚ`), Python `dict` (which preserves
insertion order) as an insertion-ordered association list `List (String × ℚ)`,
and `collections.deque(maxlen=m)` as a list keeping the last `m` elements.
-/

namespace FastLangML

/-- The last `n` elements of a list, in order.  Models the contents of a
`collections.deque(maxlen := n)` after appending the whole list. -/
def lastN (n : Nat) (l : List α) : List α := l.drop (l.length - n)

/-- Python `dict` update used by `language_distribution`'s accumulation loop:
`if k not in d: d[k] = 0.0` followed by `d[k] += w`.  An existing key keeps its
position (insertion order), a new key is appended at the end. -/
def dictAdd : List (String × ℚ) → String → ℚ → List (String × ℚ)
  | [], k, w => [(k, w)]
  | (k', v) :: rest, k, w =>
    if k' = k then (k', v + w) :: rest else (k', v) :: dictAdd rest k w

/-- `d.get(k)`-style lookup in an insertion-ordered association list: the value
at the first occurrence of the key, if any. -/
def lookupVal (m : List (String × ℚ)) (k : String) : Option ℚ :=
  (m.find? (fun p => p.1 = k)).map Prod.snd

/-- One turn in a conversation, mirroring `ConversationTurn` in
`fastlangid/context/conversation.py` (`text`, `detected_language : str | None`,
`confidence : float`, `timestamp : float`). -/
structure ConversationTurn where
  text : String
  detected_language : Option String
  confidence : ℚ
  timestamp : ℚ
deriving DecidableEq

/-- `ConversationContext` from `fastlangid/context/conversation.py`: the
`max_turns` capacity, the `decay_factor`, and the stored `_turns` (oldest
first, most recent last).  `__post_init__` always starts the deque empty, so
every reachable context is built from `{ max_turns, decay_factor, turns := [] }`
by `add_turn` calls. -/
structure ConversationContext where
  max_turns : Nat
  decay_factor : ℚ
  turns : List ConversationTurn
deriving DecidableEq

namespace ConversationContext

/-- The specification's data-model constraint on a `ConversationContext`
(spec §3): `decay_factor ∈ (0, 1]`. -/
def WF (c : ConversationContext) : Prop :=
  0 < c.decay_factor ∧ c.decay_factor ≤ 1

instance (c : ConversationContext) : Decidable c.WF := by
  unfold WF; infer_instance

/-- `add_turn`: appends a `ConversationTurn`; the `deque(maxlen=max_turns)`
drops the oldest turn when the capacity is exceeded.  `time.time()` is modelled
by the caller-supplied timestamp `ts`. -/
def add_turn (c : ConversationContext) (text : String) (lang : Option String)
    (conf : ℚ) (ts : ℚ) : ConversationContext :=
  { c with turns := lastN c.max_turns (c.turns ++ [⟨text, lang, conf, ts⟩]) }

/-- A sequence of `add_turn` calls, one per record in `l`. -/
def addMany (c : ConversationContext) (l : List ConversationTurn) :
    ConversationContext :=
  l.foldl (fun c t => c.add_turn t.text t.detected_language t.confidence t.timestamp) c

/-- The accumulation loop of `language_distribution`: iterates over the turns
with their indices (Python `enumerate`), and for every turn whose
`detected_language` is truthy (not `None`, not `""`) and not `"unknown"`
adds `decay_factor ^ (n - 1 - i) * confidence` to that language's weighted
count and to the running total. -/
def weightedLoop (decay : ℚ) (n : Nat) :
    Nat → List ConversationTurn → List (String × ℚ) × ℚ → List (String × ℚ) × ℚ
  | _, [], acc => acc
  | i, t :: rest, (wc, tot) =>
    match t.detected_language with
    | none => weightedLoop decay n (i + 1) rest (wc, tot)
    | some lang =>
      if lang = "" ∨ lang = "unknown" then weightedLoop decay n (i + 1) rest (wc, tot)
      else
        let w := decay ^ (n - 1 - i) * t.confidence
        weightedLoop decay n (i + 1) rest (dictAdd wc lang w, tot + w)

/-- `language_distribution`: empty for an empty history; otherwise the weighted
counts normalized by the total weight, or empty again when the total weight is
not positive (`if total_weight > 0`). -/
def language_distribution (c : ConversationContext) : List (String × ℚ) :=
  if c.turns = [] then []
  else
    let r := weightedLoop c.decay_factor c.turns.length 0 c.turns ([], 0)
    if 0 < r.2 then r.1.map (fun p => (p.1, p.2 / r.2)) else []

/-- The running-maximum loop of Python's `max(dist, key=lambda k: dist[k])`:
a later key replaces the current best only when its value is strictly
greater, so the first key attaining the maximum wins. -/
def maxKeyLoop : String → ℚ → List (String × ℚ) → String
  | k, _, [] => k
  | k, v, (k', v') :: rest =>
    if v < v' then maxKeyLoop k' v' rest else maxKeyLoop k v rest

/-- `dominant_language`: `None` when the distribution is empty, otherwise
`max(dist, key=lambda k: dist[k])`. -/
def dominant_language (c : ConversationContext) : Option String :=
  match c.language_distribution with
  | [] => none
  | (k, v) :: rest => some (maxKeyLoop k v rest)

/-- `get_language_streak`: `(None, 0)` for an empty history or when the newest
turn's `detected_language` is falsy (`None` or `""`); otherwise the newest
language together with the number of consecutive newest-first turns whose
`detected_language` equals it. -/
def get_language_streak (c : ConversationContext) : Option String × Nat :=
  match c.turns.reverse with
  | [] => (none, 0)
  | t :: _ =>
    match t.detected_language with
    | none => (none, 0)
    | some lang =>
      if lang = "" then (none, 0)
      else
        (some lang,
          (c.turns.reverse.takeWhile
            (fun u => u.detected_language = some lang)).length)

/-- `get_context_boost`: `0.0` when the language is absent from the
distribution; otherwise `dist[language] * 0.15`, plus
`min(streak_count * 0.02, 0.1)` when the streak language equals `language` and
the streak count is at least 2, the result capped at `0.3`. -/
def get_context_boost (c : ConversationContext) (language : String) : ℚ :=
  match lookupVal c.language_distribution language with
  | none => 0
  | some d =>
    let base := d * (15 / 100)
    let s := c.get_language_streak
    let base' :=
      if s.1 = some language ∧ 2 ≤ s.2 then
        base + min ((s.2 : ℚ) * (2 / 100)) (1 / 10)
      else base
    min base' (3 / 10)

end ConversationContext

/-- The distribution formula exactly as the specification's sentence states it
(refinement reference, to be compared with `language_distribution`): every turn
with a non-empty detected language — with no exclusion of `"unknown"` —
contributes `decay_factor ^ (n - 1 - i) * confidence` to its detected
language, and the mapping is divided by its total. -/
def specLoop (decay : ℚ) (n : Nat) :
    Nat → List ConversationTurn → List (String × ℚ) × ℚ → List (String × ℚ) × ℚ
  | _, [], acc => acc
  | i, t :: rest, (wc, tot) =>
    match t.detected_language with
    | none => specLoop decay n (i + 1) rest (wc, tot)
    | some lang =>
      if lang = "" then specLoop decay n (i + 1) rest (wc, tot)
      else
        let w := decay ^ (n - 1 - i) * t.confidence
        specLoop decay n (i + 1) rest (dictAdd wc lang w, tot + w)

/-- The normalization step of the specification's distribution formula: the
weighted counts of `specLoop` divided by their total. -/
def ConversationContext.specDistribution (c : ConversationContext) :
    List (String × ℚ) :=
  if c.turns = [] then []
  else
    let r := specLoop c.decay_factor c.turns.length 0 c.turns ([], 0)
    r.1.map (fun p => (p.1, p.2 / r.2))

/-- `distribution[k]` read with default `0`, used to compare two languages'
weights in a distribution. -/
def distVal (m : List (String × ℚ)) (k : String) : ℚ := (lookupVal m k).getD 0

/-- The sum of the values of an association list (the distribution's total
mass). -/
def valsSum (m : List (String × ℚ)) : ℚ := (m.map Prod.snd).sum

/-- The streak bonus of `get_context_boost` as the specification words it:
`min(streak_count * 0.02, 0.1)` when the streak language equals the queried
language and the streak count is at least 2, and `0` otherwise. -/
def ConversationContext.streakBonus (c : ConversationContext) (language : String) : ℚ :=
  if (c.get_language_streak).1 = some language ∧ 2 ≤ (c.get_language_streak).2 then
    min (((c.get_language_streak).2 : ℚ) * (2 / 100)) (1 / 10)
  else 0

/-- `k` is the first key of the association list attaining the maximal value:
everything before it is strictly smaller, everything after it is no larger. -/
def FirstMax (dist : List (String × ℚ)) (k : String) : Prop :=
  ∃ l1 v l2, dist = l1 ++ (k, v) :: l2 ∧
    (∀ p ∈ l1, p.2 < v) ∧ (∀ p ∈ l2, p.2 ≤ v)

/-- The part of a turn that the derived context operations may depend on:
its detected language and its confidence (not its text nor its timestamp). -/
def turnSignal (t : ConversationTurn) : Option String × ℚ :=
  (t.detected_language, t.confidence)

/-- A turn that `language_distribution` skips under claim C8's hypothesis:
`detected_language` is `None` or the string `"unknown"`. -/
def droppedKind (t : ConversationTurn) : Prop :=
  t.detected_language = none ∨ t.detected_language = some "unknown"

/-- Modelled from the spec: the dictionary produced by
`ConversationTurn.to_dict` (the serialization code is absent from the sources;
only `tests/test_context_store.py` exercises it).  Per the spec and the tests
it carries the turn's `text`, `detected_language`, `confidence` and
`timestamp`. -/
structure TurnDict where
  text : String
  detected_language : Option String
  confidence : ℚ
  timestamp : ℚ
deriving DecidableEq

/-- Modelled from the spec: `ConversationTurn.to_dict`. -/
def ConversationTurn.to_dict (t : ConversationTurn) : TurnDict :=
  ⟨t.text, t.detected_language, t.confidence, t.timestamp⟩

/-- Modelled from the spec: `ConversationTurn.from_dict`. -/
def ConversationTurn.from_dict (d : TurnDict) : ConversationTurn :=
  ⟨d.text, d.detected_language, d.confidence, d.timestamp⟩

/-- Modelled from the spec: the dictionary produced by
`ConversationContext.to_dict` — "`to_dict`/`from_dict` round-trip all turns
plus `max_turns`/`decay_factor`" (spec §4.4). -/
structure CtxDict where
  max_turns : Nat
  decay_factor : ℚ
  turns : List TurnDict
deriving DecidableEq

/-- Modelled from the spec: `ConversationContext.to_dict` serializes
`max_turns`, `decay_factor` and all stored turns in order. -/
def ConversationContext.to_dict (c : ConversationContext) : CtxDict :=
  ⟨c.max_turns, c.decay_factor, c.turns.map ConversationTurn.to_dict⟩

/-- Modelled from the spec: `ConversationContext.from_dict` rebuilds a context
with the stored `max_turns`/`decay_factor` and re-inserts the stored turns
into a fresh bounded history (so the `max_turns` capacity is respected). -/
def ConversationContext.from_dict (d : CtxDict) : ConversationContext :=
  ConversationContext.addMany ⟨d.max_turns, d.decay_factor, []⟩
    (d.turns.map ConversationTurn.from_dict)

/-! ### ProperNounFilter (`fastlangid/preprocessing/proper_noun_filter.py`)

Python's Unicode-aware character predicates (`str.isupper`, `\w`, …) are
modelled at the ASCII level; the NLTK code path calls the external NLTK
library and is modelled as an opaque collaborator function carried by the
filter value. -/

/-- The `strategy` literal of `ProperNounFilter`:  `"remove"`, `"mask"` or
`"none"` (constructor `noFilter` models the string `"none"`). -/
inductive FilterStrategy
  | remove
  | mask
  | noFilter
deriving DecidableEq

/-- ASCII model of Python's `\w` word character: alphanumeric or underscore. -/
def isWordChar (c : Char) : Bool := c.isAlphanum || c = '_'

/-- `re.sub(r"[^\w]", "", word).lower()`. -/
def cleanWord (w : String) : String :=
  (String.mk (w.data.filter isWordChar)).toLower

/-- The `_common_words` set of `ProperNounFilter`: capitalized words that are
never treated as proper nouns. -/
def commonWords : List String :=
  ["the", "a", "an", "in", "on", "at", "to", "for", "of", "with",
   "is", "are", "was", "were", "be", "been", "being", "have", "has",
   "had", "do", "does", "did", "will", "would", "could", "should",
   "may", "might", "must", "shall", "can", "need", "dare", "ought",
   "used", "i", "you", "he", "she", "it", "we", "they", "what",
   "which", "who", "whom", "this", "that", "these", "those", "am",
   "and", "or", "but", "if", "then", "else", "when", "where", "why",
   "how", "all", "each", "every", "both", "few", "more", "most",
   "other", "some", "such", "no", "nor", "not", "only", "own", "same",
   "so", "than", "too", "very", "just", "also", "now", "here", "there",
   "der", "die", "das", "und", "oder",
   "le", "la", "les", "et", "ou",
   "el", "la", "los", "las", "y", "o",
   "il", "lo", "la", "gli", "le", "e"]

/-- `_split_sentences`'s `re.split(r"(?<=[.!?])\s+", text)`: a maximal
whitespace run immediately preceded by `.`, `!` or `?` separates sentences. -/
def splitSentencesChars : List Char → List Char → List String
  | [], acc => [String.mk acc.reverse]
  | c :: rest, acc =>
    if (c = '.' || c = '!' || c = '?') && rest.head?.any Char.isWhitespace then
      String.mk (c :: acc).reverse ::
        splitSentencesChars (rest.dropWhile Char.isWhitespace) []
    else splitSentencesChars rest (c :: acc)
termination_by l _ => l.length
decreasing_by
  · exact Nat.lt_succ_of_le (List.dropWhile_sublist _).length_le
  · exact Nat.lt_succ_of_le (Nat.le_refl _)

/-- `_split_sentences`: split, strip each piece, drop the empty ones. -/
def splitSentences (text : String) : List String :=
  ((splitSentencesChars text.data []).map String.trim).filter (fun s => s ≠ "")

/-- Python `sentence.split()`: split on whitespace, dropping empty pieces. -/
def pySplit (s : String) : List String :=
  (s.split Char.isWhitespace).filter (fun w => w ≠ "")

/-- The per-word loop of `_filter_with_heuristics`; the flag records whether
the word is the first of its sentence (`i == 0`). -/
def filterWordsLoop (strategy : FilterStrategy) : Bool → List String → List String
  | _, [] => []
  | isFirst, w :: rest =>
    let clean := cleanWord w
    let is_capitalized := w.data.head?.any Char.isUpper
    let is_common := commonWords.contains clean
    let is_all_caps := (w.data.any Char.isAlpha && w.data.all (fun c => !c.isLower))
      && w.length > 1
    let is_numeric := w.data.any Char.isDigit
    if !is_capitalized || isFirst || is_common || is_numeric then
      w :: filterWordsLoop strategy false rest
    else if is_all_caps then
      w :: filterWordsLoop strategy false rest
    else if strategy = FilterStrategy.mask then
      "[NAME]" :: filterWordsLoop strategy false rest
    else filterWordsLoop strategy false rest

/-- `_filter_with_heuristics`: filter each sentence's words, keep the
non-empty sentences, and rejoin everything with single spaces. -/
def filterWithHeuristics (strategy : FilterStrategy) (text : String) : String :=
  String.intercalate " "
    ((((splitSentences text).map
        (fun s => filterWordsLoop strategy true (pySplit s))).filter
      (fun ws => ws ≠ [])).map (String.intercalate " "))

/-- `ProperNounFilter`: the configured strategy, the resolved
`_use_nltk` flag, and — standing for the external NLTK library — the
function the `_filter_with_nltk` path computes. -/
structure ProperNounFilter where
  strategy : FilterStrategy
  use_nltk : Bool
  nltkFilterFn : String → String

/-- `ProperNounFilter.filter`: the identity for strategy `"none"`, otherwise
the NLTK path when enabled, otherwise the capitalization heuristics. -/
def ProperNounFilter.filter (f : ProperNounFilter) (text : String) : String :=
  if f.strategy = FilterStrategy.noFilter then text
  else if f.use_nltk then f.nltkFilterFn text
  else filterWithHeuristics f.strategy text

/-! ### DetectionCache (`fastlangid/cache.py`)

The `cachetools.LRUCache` contents are modelled as an association list in
most-recently-used-first order; a Python stored value of type `T` that may be
`None` is modelled as an `Option V` (`none` standing for Python's `None`). -/

/-- `DetectionCache`: the LRU store, its capacity, and the hit/miss
counters. -/
structure DetectionCache (V : Type) where
  cache : List (String × Option V)
  max_size : Nat
  hits : Nat
  misses : Nat

/-- The stored value for a key, if the key is present (`None`-valued entries
included). -/
def DetectionCache.lookup (c : DetectionCache V) (key : String) : Option (Option V) :=
  (c.cache.find? (fun p => p.1 = key)).map Prod.snd

/-- `DetectionCache.get`: `self._cache.get(key)` (an LRU hit moves the entry
to the front), then `hits += 1` when the result is not `None`, else
`misses += 1`; returns the result and the updated cache state. -/
def DetectionCache.get (c : DetectionCache V) (key : String) :
    Option V × DetectionCache V :=
  match c.cache.find? (fun p => p.1 = key) with
  | none => (none, { c with misses := c.misses + 1 })
  | some (k, v) =>
    let touched := (k, v) :: c.cache.eraseP (fun p => p.1 = key)
    match v with
    | some x => (some x, { c with cache := touched, hits := c.hits + 1 })
    | none => (none, { c with cache := touched, misses := c.misses + 1 })

/-- `DetectionCache.put`: `self._cache[key] = value` — insert or update at the
most-recently-used position, evicting from the least-recently-used end when
the capacity is exceeded. -/
def DetectionCache.put (c : DetectionCache V) (key : String) (value : Option V) :
    DetectionCache V :=
  { c with cache := ((key, value) :: c.cache.eraseP (fun p => p.1 = key)).take c.max_size }

/-! ### Concrete example values used to instantiate the claims -/

/-- A concrete context with two stored turns, used to instantiate the
serialization round-trip. -/
def exCtxRound : ConversationContext :=
  ⟨5, 85/100, [⟨"Test", some "en", 9/10, 0⟩, ⟨"Prueba", some "es", 85/100, 1⟩]⟩

/-- A concrete detection cache over `Nat` results holding one ordinary entry
and one `None`-valued entry. -/
def exCache : DetectionCache Nat := ⟨[("a", some 1), ("b", none)], 10, 3, 4⟩

/-- A concrete context whose three newest turns are `"en"` turns following an
`"fr"` turn. -/
def exCtxStreak : ConversationContext :=
  ⟨9, 1/2, [⟨"d", some "fr", 1/2, 0⟩, ⟨"a", some "en", 1/2, 1⟩,
    ⟨"b", some "en", 1/2, 2⟩, ⟨"c", some "en", 1/2, 3⟩]⟩

/-- A concrete two-turn English context. -/
def exCtxA : ConversationContext :=
  ⟨5, 9/10, [⟨"Hello", some "en", 9/10, 11⟩, ⟨"World", some "en", 8/10, 12⟩]⟩

/-- The same turn signals as `exCtxA` with different texts and timestamps. -/
def exCtxB : ConversationContext :=
  ⟨5, 9/10, [⟨"Bonjour", some "en", 9/10, 99⟩, ⟨"Monde", some "en", 8/10, 100⟩]⟩

/-- The claim's recency-weighting example: `ConversationContext(decay_factor=0.5)`
with an `"en"` turn added before an `"fr"` turn at the same confidence `q`. -/
def enFrCtx (q : ℚ) : ConversationContext :=
  ((⟨2, 1/2, []⟩ : ConversationContext).add_turn "hello" (some "en") q 0).add_turn
    "bonjour" (some "fr") q 1

/-- A context whose turns all carry non-empty detected languages and
confidences in `(0,1]`, one of them being the string `"unknown"`. -/
def cexC1 : ConversationContext :=
  ⟨2, 1/2, [⟨"x", some "unknown", 1/2, 0⟩, ⟨"y", some "en", 1/2, 1⟩]⟩

/-- A turn with detected language `"unknown"`. -/
def exDropT : ConversationTurn := ⟨"??", some "unknown", 1/2, 5⟩

/-- A turn with no detected language. -/
def exDropT' : ConversationTurn := ⟨"!!", none, 1, 6⟩

/-- A one-turn prefix used around the dropped turn. -/
def exPre : List ConversationTurn := [⟨"Hi", some "en", 9/10, 0⟩]

/-- A one-turn suffix used around the dropped turn. -/
def exPost : List ConversationTurn := [⟨"Yo", some "en", 8/10, 1⟩]

/-! ### Helper lemmas about the bounded history -/

theorem lastN_eq_rtake (n : Nat) (l : List α) : lastN n l = l.rtake n := rfl

theorem lastN_of_le {n : Nat} {l : List α} (h : l.length ≤ n) : lastN n l = l := by
  unfold lastN
  rw [Nat.sub_eq_zero_of_le h, List.drop_zero]

theorem lastN_length_le (n : Nat) (l : List α) : (lastN n l).length ≤ n := by
  unfold lastN
  rw [List.length_drop]
  omega

theorem lastN_append_lastN (n : Nat) (a b : List α) :
    lastN n (lastN n a ++ b) = lastN n (a ++ b) := by
  simp only [lastN_eq_rtake, List.rtake_eq_reverse_take_reverse, List.reverse_append,
    List.reverse_reverse]
  rw [List.take_append_eq_append_take, List.take_append_eq_append_take, List.take_take,
    min_eq_left (Nat.sub_le _ _)]

theorem ConversationContext.add_turn_max_turns (c : ConversationContext)
    (text : String) (lang : Option String) (conf ts : ℚ) :
    (c.add_turn text lang conf ts).max_turns = c.max_turns := rfl

theorem ConversationContext.addMany_max_turns (c : ConversationContext)
    (l : List ConversationTurn) : (c.addMany l).max_turns = c.max_turns := by
  induction l generalizing c with
  | nil => rfl
  | cons t l ih => exact ih _

theorem ConversationContext.addMany_decay_factor (c : ConversationContext)
    (l : List ConversationTurn) : (c.addMany l).decay_factor = c.decay_factor := by
  induction l generalizing c with
  | nil => rfl
  | cons t l ih => exact ih _

theorem ConversationContext.addMany_turns (c : ConversationContext)
    (l : List ConversationTurn) (h : c.turns.length ≤ c.max_turns) :
    (c.addMany l).turns = lastN c.max_turns (c.turns ++ l) := by
  induction l generalizing c with
  | nil => simpa [ConversationContext.addMany] using (lastN_of_le h).symm
  | cons t l ih =>
    have hstep :
        (c.add_turn t.text t.detected_language t.confidence t.timestamp).turns
          = lastN c.max_turns (c.turns ++ [t]) := rfl
    have hlen :
        (c.add_turn t.text t.detected_language t.confidence t.timestamp).turns.length
          ≤ (c.add_turn t.text t.detected_language t.confidence t.timestamp).max_turns := by
      rw [hstep, ConversationContext.add_turn_max_turns]
      exact lastN_length_le _ _
    calc (c.addMany (t :: l)).turns
        = ((c.add_turn t.text t.detected_language t.confidence t.timestamp).addMany l).turns :=
          rfl
      _ = lastN c.max_turns (lastN c.max_turns (c.turns ++ [t]) ++ l) := by
          rw [ih _ hlen, hstep, ConversationContext.add_turn_max_turns]
      _ = lastN c.max_turns (c.turns ++ t :: l) := by
          rw [lastN_append_lastN, List.append_assoc, List.singleton_append]

theorem dictAdd_values_nonneg (k : String) (w : ℚ) (hw : 0 ≤ w) :
    ∀ (m : List (String × ℚ)), (∀ p ∈ m, 0 ≤ p.2) → ∀ p ∈ dictAdd m k w, 0 ≤ p.2 := by
  intro m
  induction m with
  | nil =>
    intro _ p hp
    simp only [dictAdd, List.mem_singleton] at hp
    rw [hp]
    exact hw
  | cons e rest ih =>
    intro hm p hp
    obtain ⟨k', v⟩ := e
    rw [dictAdd] at hp
    by_cases hk : k' = k
    · rw [if_pos hk] at hp
      rcases List.mem_cons.mp hp with h | h
      · rw [h]
        exact add_nonneg (hm (k', v) (List.mem_cons_self _ _)) hw
      · exact hm p (List.mem_cons_of_mem _ h)
    · rw [if_neg hk] at hp
      rcases List.mem_cons.mp hp with h | h
      · rw [h]
        exact hm (k', v) (List.mem_cons_self _ _)
      · exact ih (fun q hq => hm q (List.mem_cons_of_mem _ hq)) p h

theorem dictAdd_keys (k : String) (w : ℚ) :
    ∀ (m : List (String × ℚ)), ∀ p ∈ dictAdd m k w,
      p.1 ∈ m.map Prod.fst ∨ p.1 = k := by
  intro m
  induction m with
  | nil =>
    intro p hp
    simp only [dictAdd, List.mem_singleton] at hp
    rw [hp]
    exact Or.inr rfl
  | cons e rest ih =>
    intro p hp
    obtain ⟨k', v⟩ := e
    rw [dictAdd] at hp
    by_cases hk : k' = k
    · rw [if_pos hk] at hp
      rcases List.mem_cons.mp hp with h | h
      · rw [h]; exact Or.inl (by simp)
      · exact Or.inl (List.mem_map.mpr ⟨p, List.mem_cons_of_mem _ h, rfl⟩)
    · rw [if_neg hk] at hp
      rcases List.mem_cons.mp hp with h | h
      · rw [h]; exact Or.inl (by simp)
      · rcases ih p h with h' | h'
        · refine Or.inl ?_
          rw [List.map_cons]
          exact List.mem_cons_of_mem _ h'
        · exact Or.inr h'

theorem dictAdd_valsSum (k : String) (w : ℚ) :
    ∀ (m : List (String × ℚ)), valsSum (dictAdd m k w) = valsSum m + w := by
  intro m
  induction m with
  | nil => simp [dictAdd, valsSum]
  | cons e rest ih =>
    obtain ⟨k', v⟩ := e
    rw [dictAdd]
    by_cases hk : k' = k
    · rw [if_pos hk]
      simp [valsSum]
      ring
    · rw [if_neg hk]
      simp only [valsSum, List.map_cons, List.sum_cons] at ih ⊢
      rw [ih]
      ring

theorem weightedLoop_nonneg (d : ℚ) (hd : 0 ≤ d) (n : Nat) :
    ∀ (l : List ConversationTurn), (∀ t ∈ l, 0 ≤ t.confidence) →
      ∀ (i : Nat) (wc : List (String × ℚ)) (tot : ℚ), (∀ p ∈ wc, 0 ≤ p.2) →
        ∀ p ∈ (ConversationContext.weightedLoop d n i l (wc, tot)).1, 0 ≤ p.2 := by
  intro l
  induction l with
  | nil =>
    intro _ i wc tot hwc p hp
    exact hwc p hp
  | cons t l ih =>
    intro hl i wc tot hwc
    have hl' : ∀ t ∈ l, 0 ≤ t.confidence :=
      fun u hu => hl u (List.mem_cons_of_mem _ hu)
    rw [ConversationContext.weightedLoop]
    cases hdl : t.detected_language with
    | none => exact ih hl' (i + 1) wc tot hwc
    | some lang =>
      dsimp only
      by_cases hfil : lang = "" ∨ lang = "unknown"
      · rw [if_pos hfil]
        exact ih hl' (i + 1) wc tot hwc
      · rw [if_neg hfil]
        have hw : 0 ≤ d ^ (n - 1 - i) * t.confidence :=
          mul_nonneg (pow_nonneg hd _) (hl t (List.mem_cons_self _ _))
        exact ih hl' (i + 1) _ _ (dictAdd_values_nonneg lang _ hw wc hwc)

theorem weightedLoop_tot_le (d : ℚ) (hd : 0 ≤ d) (n : Nat) :
    ∀ (l : List ConversationTurn), (∀ t ∈ l, 0 ≤ t.confidence) →
      ∀ (i : Nat) (wc : List (String × ℚ)) (tot : ℚ),
        tot ≤ (ConversationContext.weightedLoop d n i l (wc, tot)).2 := by
  intro l
  induction l with
  | nil => intro _ i wc tot; exact le_refl tot
  | cons t l ih =>
    intro hl i wc tot
    have hl' : ∀ t ∈ l, 0 ≤ t.confidence :=
      fun u hu => hl u (List.mem_cons_of_mem _ hu)
    rw [ConversationContext.weightedLoop]
    cases hdl : t.detected_language with
    | none => exact ih hl' (i + 1) wc tot
    | some lang =>
      dsimp only
      by_cases hfil : lang = "" ∨ lang = "unknown"
      · rw [if_pos hfil]
        exact ih hl' (i + 1) wc tot
      · rw [if_neg hfil]
        have hw : 0 ≤ d ^ (n - 1 - i) * t.confidence :=
          mul_nonneg (pow_nonneg hd _) (hl t (List.mem_cons_self _ _))
        exact le_trans (le_add_of_nonneg_right hw) (ih hl' (i + 1) _ _)

theorem weightedLoop_keys (d : ℚ) (n : Nat) :
    ∀ (l : List ConversationTurn) (i : Nat) (wc : List (String × ℚ)) (tot : ℚ),
      ∀ p ∈ (ConversationContext.weightedLoop d n i l (wc, tot)).1,
        p.1 ∈ wc.map Prod.fst ∨ (p.1 ≠ "" ∧ p.1 ≠ "unknown") := by
  intro l
  induction l with
  | nil =>
    intro i wc tot p hp
    exact Or.inl (List.mem_map.mpr ⟨p, hp, rfl⟩)
  | cons t l ih =>
    intro i wc tot
    rw [ConversationContext.weightedLoop]
    cases hdl : t.detected_language with
    | none => exact ih (i + 1) wc tot
    | some lang =>
      dsimp only
      by_cases hfil : lang = "" ∨ lang = "unknown"
      · rw [if_pos hfil]
        exact ih (i + 1) wc tot
      · rw [if_neg hfil]
        intro p hp
        rcases ih (i + 1) _ _ p hp with h | h
        · rcases List.mem_map.mp h with ⟨q, hq, hq1⟩
          rcases dictAdd_keys lang _ wc q hq with h' | h'
          · exact Or.inl (hq1 ▸ h')
          · push_neg at hfil
            exact Or.inr (hq1 ▸ h' ▸ ⟨hfil.1, hfil.2⟩)
        · exact Or.inr h

theorem weightedLoop_valsSum (d : ℚ) (n : Nat) :
    ∀ (l : List ConversationTurn) (i : Nat) (wc : List (String × ℚ)) (tot : ℚ),
      valsSum (ConversationContext.weightedLoop d n i l (wc, tot)).1 + tot
        = valsSum wc + (ConversationContext.weightedLoop d n i l (wc, tot)).2 := by
  intro l
  induction l with
  | nil => intro i wc tot; simp only [ConversationContext.weightedLoop]
  | cons t l ih =>
    intro i wc tot
    rw [ConversationContext.weightedLoop]
    cases hdl : t.detected_language with
    | none => exact ih (i + 1) wc tot
    | some lang =>
      dsimp only
      by_cases hfil : lang = "" ∨ lang = "unknown"
      · rw [if_pos hfil]
        exact ih (i + 1) wc tot
      · rw [if_neg hfil]
        have := ih (i + 1) (dictAdd wc lang (d ^ (n - 1 - i) * t.confidence))
          (tot + d ^ (n - 1 - i) * t.confidence)
        rw [dictAdd_valsSum] at this
        linarith

theorem lookupVal_mem {m : List (String × ℚ)} {k : String} {v : ℚ}
    (h : lookupVal m k = some v) : (k, v) ∈ m := by
  unfold lookupVal at h
  cases hf : m.find? (fun p => p.1 = k) with
  | none => rw [hf] at h; simp at h
  | some q =>
    rw [hf] at h
    have hv : q.2 = v := by simpa using h
    have hq : q ∈ m := List.mem_of_find?_eq_some hf
    have hk : q.1 = k := by simpa using List.find?_some hf
    have hqeq : (k, v) = q := by
      rw [← hk, ← hv]
    rw [hqeq]
    exact hq

theorem lookupVal_map_div (m : List (String × ℚ)) (q : ℚ) (k : String) :
    lookupVal (m.map (fun p => (p.1, p.2 / q))) k
      = (lookupVal m k).map (fun v => v / q) := by
  induction m with
  | nil => rfl
  | cons e rest ih =>
    obtain ⟨k', v⟩ := e
    by_cases he : k' = k
    · simp [lookupVal, List.find?, he]
    · simp only [List.map_cons]
      unfold lookupVal at ih ⊢
      rw [List.find?_cons_of_neg, List.find?_cons_of_neg]
      · exact ih
      · simpa using he
      · simpa using he

theorem language_distribution_values_nonneg (c : ConversationContext)
    (hd : 0 ≤ c.decay_factor) (hconf : ∀ t ∈ c.turns, 0 ≤ t.confidence) :
    ∀ p ∈ c.language_distribution, 0 ≤ p.2 := by
  unfold ConversationContext.language_distribution
  by_cases h0 : c.turns = []
  · rw [if_pos h0]
    intro p hp
    simp at hp
  · rw [if_neg h0]
    dsimp only
    by_cases hpos :
        0 < (ConversationContext.weightedLoop c.decay_factor c.turns.length 0 c.turns ([], 0)).2
    · rw [if_pos hpos]
      intro p hp
      rcases List.mem_map.mp hp with ⟨q, hq, hq1⟩
      have hqv : 0 ≤ q.2 :=
        weightedLoop_nonneg c.decay_factor hd c.turns.length c.turns hconf 0 [] 0
          (by simp) q hq
      rw [← hq1]
      exact div_nonneg hqv (le_of_lt hpos)
    · rw [if_neg hpos]
      intro p hp
      simp at hp

theorem language_distribution_keys (c : ConversationContext) :
    ∀ p ∈ c.language_distribution, p.1 ≠ "" ∧ p.1 ≠ "unknown" := by
  unfold ConversationContext.language_distribution
  by_cases h0 : c.turns = []
  · rw [if_pos h0]
    intro p hp
    simp at hp
  · rw [if_neg h0]
    dsimp only
    by_cases hpos :
        0 < (ConversationContext.weightedLoop c.decay_factor c.turns.length 0 c.turns ([], 0)).2
    · rw [if_pos hpos]
      intro p hp
      rcases List.mem_map.mp hp with ⟨q, hq, hq1⟩
      rcases weightedLoop_keys c.decay_factor c.turns.length c.turns 0 [] 0 q hq with h | h
      · simp at h
      · rw [← hq1]
        exact h
    · rw [if_neg hpos]
      intro p hp
      simp at hp

theorem specLoop_eq_weightedLoop (d : ℚ) (n : Nat) :
    ∀ (l : List ConversationTurn),
      (∀ t ∈ l, t.detected_language ≠ some "unknown") →
      ∀ (i : Nat) (acc : List (String × ℚ) × ℚ),
        specLoop d n i l acc = ConversationContext.weightedLoop d n i l acc := by
  intro l
  induction l with
  | nil =>
    intro _ i acc
    obtain ⟨wc, tot⟩ := acc
    rfl
  | cons t l ih =>
    intro hl i acc
    obtain ⟨wc, tot⟩ := acc
    have hl' : ∀ t ∈ l, t.detected_language ≠ some "unknown" :=
      fun u hu => hl u (List.mem_cons_of_mem _ hu)
    rw [specLoop, ConversationContext.weightedLoop]
    cases hdl : t.detected_language with
    | none => exact ih hl' (i + 1) (wc, tot)
    | some lang =>
      dsimp only
      have hunk : lang ≠ "unknown" := by
        intro hcontra
        exact hl t (List.mem_cons_self _ _) (by rw [hdl, hcontra])
      by_cases hemp : lang = ""
      · rw [if_pos hemp, if_pos (Or.inl hemp)]
        exact ih hl' (i + 1) (wc, tot)
      · rw [if_neg hemp, if_neg (by simp [hemp, hunk])]
        exact ih hl' (i + 1) _

theorem weightedLoop_tot_pos (d : ℚ) (hd : 0 < d) (n : Nat)
    (t : ConversationTurn) (rest : List ConversationTurn)
    (hlang : ∃ lg, t.detected_language = some lg ∧ lg ≠ "" ∧ lg ≠ "unknown")
    (hconfh : 0 < t.confidence)
    (hconft : ∀ u ∈ rest, 0 ≤ u.confidence) (i : Nat) :
    0 < (ConversationContext.weightedLoop d n i (t :: rest) ([], 0)).2 := by
  obtain ⟨lg, hlg, hlg1, hlg2⟩ := hlang
  rw [ConversationContext.weightedLoop, hlg]
  dsimp only
  rw [if_neg (by simp [hlg1, hlg2])]
  have hw : 0 < d ^ (n - 1 - i) * t.confidence := mul_pos (pow_pos hd _) hconfh
  calc (0:ℚ) < 0 + d ^ (n - 1 - i) * t.confidence := by linarith
    _ ≤ _ := weightedLoop_tot_le d (le_of_lt hd) n rest hconft (i + 1) _ _

theorem valsSum_map_div (m : List (String × ℚ)) (q : ℚ) :
    valsSum (m.map (fun p => (p.1, p.2 / q))) = valsSum m / q := by
  induction m with
  | nil => simp [valsSum]
  | cons e rest ih =>
    simp only [valsSum, List.map_cons, List.sum_cons] at ih ⊢
    rw [ih, add_div]

theorem weightedLoop_append (d : ℚ) (n : Nat) :
    ∀ (a b : List ConversationTurn) (i : Nat) (acc : List (String × ℚ) × ℚ),
      ConversationContext.weightedLoop d n i (a ++ b) acc
        = ConversationContext.weightedLoop d n (i + a.length) b
            (ConversationContext.weightedLoop d n i a acc) := by
  intro a
  induction a with
  | nil =>
    intro b i acc
    obtain ⟨wc, tot⟩ := acc
    rw [List.nil_append, List.length_nil, Nat.add_zero]
    rfl
  | cons t a ih =>
    intro b i acc
    obtain ⟨wc, tot⟩ := acc
    rw [List.cons_append, ConversationContext.weightedLoop,
      ConversationContext.weightedLoop]
    have hidx : i + (t :: a).length = (i + 1) + a.length := by
      simp [List.length_cons]
      omega
    cases hdl : t.detected_language with
    | none => rw [ih b (i + 1) (wc, tot), hidx]
    | some lang =>
      dsimp only
      by_cases hfil : lang = "" ∨ lang = "unknown"
      · rw [if_pos hfil, if_pos hfil, ih b (i + 1) (wc, tot), hidx]
      · rw [if_neg hfil, if_neg hfil, ih b (i + 1) _, hidx]

theorem weightedLoop_skip (d : ℚ) (n : Nat) (t : ConversationTurn)
    (ht : droppedKind t) (rest : List ConversationTurn) (i : Nat)
    (acc : List (String × ℚ) × ℚ) :
    ConversationContext.weightedLoop d n i (t :: rest) acc
      = ConversationContext.weightedLoop d n (i + 1) rest acc := by
  obtain ⟨wc, tot⟩ := acc
  rw [ConversationContext.weightedLoop]
  rcases ht with h | h
  · rw [h]
  · rw [h]
    dsimp only
    rw [if_pos (Or.inr rfl)]

theorem weightedLoop_all_dropped (d : ℚ) (n : Nat) :
    ∀ (l : List ConversationTurn), (∀ u ∈ l, droppedKind u) →
      ∀ (i : Nat) (acc : List (String × ℚ) × ℚ),
        ConversationContext.weightedLoop d n i l acc = acc := by
  intro l
  induction l with
  | nil =>
    intro _ i acc
    obtain ⟨wc, tot⟩ := acc
    rfl
  | cons t l ih =>
    intro hl i acc
    rw [weightedLoop_skip d n t (hl t (List.mem_cons_self _ _))]
    exact ih (fun u hu => hl u (List.mem_cons_of_mem _ hu)) (i + 1) acc

theorem takeWhile_middle_congr (p : α → Bool) :
    ∀ (P : List α) (x x' : α) (Q : List α), p x = false → p x' = false →
      (P ++ x :: Q).takeWhile p = (P ++ x' :: Q).takeWhile p := by
  intro P
  induction P with
  | nil =>
    intro x x' Q hx hx'
    rw [List.nil_append, List.nil_append, List.takeWhile_cons, List.takeWhile_cons,
      hx, hx']
    rfl
  | cons a P' ih =>
    intro x x' Q hx hx'
    rw [List.cons_append, List.cons_append, List.takeWhile_cons, List.takeWhile_cons]
    cases hpa : p a
    · rfl
    · rw [ih x x' Q hx hx']

theorem streak_fst_of_dropped_head (c : ConversationContext) (u : ConversationTurn)
    (r : List ConversationTurn) (hrev : c.turns.reverse = u :: r)
    (hu : droppedKind u) (lang : String) (hne2 : lang ≠ "unknown") :
    (c.get_language_streak).1 ≠ some lang := by
  unfold ConversationContext.get_language_streak
  rw [hrev]
  dsimp only
  rcases hu with h | h
  · rw [h]
    simp
  · rw [h]
    simp [Ne.symm hne2]

theorem c8_streak_eq_or_ne (m : Nat) (d : ℚ) (pre post : List ConversationTurn)
    (t t' : ConversationTurn) (ht : droppedKind t) (ht' : droppedKind t')
    (lang : String) (hne2 : lang ≠ "unknown") :
    ((⟨m, d, pre ++ t :: post⟩ : ConversationContext).get_language_streak
        = (⟨m, d, pre ++ t' :: post⟩ : ConversationContext).get_language_streak) ∨
    ((⟨m, d, pre ++ t :: post⟩ :
        ConversationContext).get_language_streak.1 ≠ some lang ∧
      (⟨m, d, pre ++ t' :: post⟩ :
        ConversationContext).get_language_streak.1 ≠ some lang) := by
  have hrevT : (⟨m, d, pre ++ t :: post⟩ : ConversationContext).turns.reverse
      = post.reverse ++ t :: pre.reverse := by
    show (pre ++ t :: post).reverse = _
    rw [List.reverse_append, List.reverse_cons, List.append_assoc,
      List.singleton_append]
  have hrevT' : (⟨m, d, pre ++ t' :: post⟩ : ConversationContext).turns.reverse
      = post.reverse ++ t' :: pre.reverse := by
    show (pre ++ t' :: post).reverse = _
    rw [List.reverse_append, List.reverse_cons, List.append_assoc,
      List.singleton_append]
  cases hpost : post.reverse with
  | nil =>
    rw [hpost, List.nil_append] at hrevT hrevT'
    exact Or.inr
      ⟨streak_fst_of_dropped_head _ t pre.reverse hrevT ht lang hne2,
        streak_fst_of_dropped_head _ t' pre.reverse hrevT' ht' lang hne2⟩
  | cons u P' =>
    rw [hpost, List.cons_append] at hrevT hrevT'
    unfold ConversationContext.get_language_streak
    rw [hrevT, hrevT']
    dsimp only
    cases hu : u.detected_language with
    | none => exact Or.inl rfl
    | some M =>
      dsimp only
      by_cases hM : M = ""
      · rw [if_pos hM, if_pos hM]
        exact Or.inl rfl
      · rw [if_neg hM, if_neg hM]
        by_cases hML : M = lang
        · subst hML
          refine Or.inl ?_
          have hxt :
              (fun x : ConversationTurn =>
                decide (x.detected_language = some M)) t = false := by
            rcases ht with h | h
            · simp [h]
            · simp only [h, decide_eq_false_iff_not]
              intro hcon
              exact (Ne.symm hne2) (by injection hcon)
          have hxt' :
              (fun x : ConversationTurn =>
                decide (x.detected_language = some M)) t' = false := by
            rcases ht' with h | h
            · simp [h]
            · simp only [h, decide_eq_false_iff_not]
              intro hcon
              exact (Ne.symm hne2) (by injection hcon)
          have hcount := takeWhile_middle_congr
            (fun x : ConversationTurn => decide (x.detected_language = some M))
            (u :: P') t t' pre.reverse hxt hxt'
          rw [List.cons_append, List.cons_append] at hcount
          rw [hcount]
        · refine Or.inr ⟨?_, ?_⟩ <;>
            · intro hcon
              exact hML (by injection hcon)

theorem c8_streakBonus_eq (m : Nat) (d : ℚ) (pre post : List ConversationTurn)
    (t t' : ConversationTurn) (ht : droppedKind t) (ht' : droppedKind t')
    (lang : String) (hne2 : lang ≠ "unknown") :
    (⟨m, d, pre ++ t :: post⟩ : ConversationContext).streakBonus lang
      = (⟨m, d, pre ++ t' :: post⟩ : ConversationContext).streakBonus lang := by
  rcases c8_streak_eq_or_ne m d pre post t t' ht ht' lang hne2 with h | ⟨h1, h2⟩
  · unfold ConversationContext.streakBonus
    rw [h]
  · unfold ConversationContext.streakBonus
    rw [if_neg (fun hc => h1 hc.1), if_neg (fun hc => h2 hc.1)]

theorem head?_dropWhile_not (p : α → Bool) :
    ∀ (l : List α) (u : α), (l.dropWhile p).head? = some u → p u = false := by
  intro l
  induction l with
  | nil => intro u h; simp at h
  | cons a l ih =>
    intro u h
    rw [List.dropWhile_cons] at h
    by_cases hp : p a
    · rw [if_pos hp] at h
      exact ih u h
    · rw [if_neg hp] at h
      simp at h
      rw [← h]
      exact Bool.of_not_eq_true hp

/-- The running-maximum loop keeps the first key attaining the maximum:
everything strictly before the returned key is strictly smaller, everything
after it is no larger. -/
theorem maxKeyLoop_spec :
    ∀ (rest : List (String × ℚ)) (k : String) (v : ℚ),
      ∃ l1 w l2,
        (k, v) :: rest = l1 ++ (ConversationContext.maxKeyLoop k v rest, w) :: l2 ∧
        (∀ p ∈ l1, p.2 < w) ∧ (∀ p ∈ l2, p.2 ≤ w) := by
  intro rest
  induction rest with
  | nil =>
    intro k v
    exact ⟨[], v, [], rfl, by simp, by simp⟩
  | cons e rest ih =>
    intro k v
    obtain ⟨k', v'⟩ := e
    by_cases hlt : v < v'
    · obtain ⟨l1, w, l2, heq, h1, h2⟩ := ih k' v'
      have hv'w : v' ≤ w := by
        cases l1 with
        | nil =>
          rw [List.nil_append] at heq
          injection heq with hpair _
          injection hpair with _ hv
          rw [hv]
        | cons a l1' =>
          rw [List.cons_append] at heq
          injection heq with hpair _
          have := h1 a (List.mem_cons_self a l1')
          rw [← hpair] at this
          exact le_of_lt this
      refine ⟨(k, v) :: l1, w, l2, ?_, ?_, h2⟩
      · rw [ConversationContext.maxKeyLoop, if_pos hlt, List.cons_append, ← heq]
      · intro p hp
        rcases List.mem_cons.mp hp with h | h
        · rw [h]
          exact lt_of_lt_of_le hlt hv'w
        · exact h1 p h
    · obtain ⟨l1, w, l2, heq, h1, h2⟩ := ih k v
      rw [ConversationContext.maxKeyLoop, if_neg hlt]
      cases l1 with
      | nil =>
        rw [List.nil_append] at heq
        injection heq with hpair hrest
        obtain ⟨hk, hw⟩ : k = ConversationContext.maxKeyLoop k v rest ∧ v = w := by
          injection hpair with hk hw
          exact ⟨hk, hw⟩
        refine ⟨[], v, (k', v') :: rest, ?_, by simp, ?_⟩
        · rw [List.nil_append, ← hk]
        · intro p hp
          rcases List.mem_cons.mp hp with h | h
          · rw [h]
            exact le_of_not_lt hlt
          · rw [← hw] at h2
            exact h2 p (hrest ▸ h)
      | cons a l1' =>
        rw [List.cons_append] at heq
        injection heq with hpair hrest
        refine ⟨(k, v) :: (k', v') :: l1', w, l2, ?_, ?_, h2⟩
        · rw [List.cons_append, List.cons_append, ← hrest]
        · intro p hp
          have hvw : v < w := by
            have := h1 a (List.mem_cons_self a l1')
            rw [← hpair] at this
            exact this
          rcases List.mem_cons.mp hp with h | h
          · rw [h]; exact hvw
          · rcases List.mem_cons.mp h with h' | h'
            · rw [h']
              exact lt_of_le_of_lt (le_of_not_lt hlt) hvw
            · exact h1 p (List.mem_cons_of_mem _ h')

theorem weightedLoop_signal_congr :
    ∀ (l1 l2 : List ConversationTurn), l1.map turnSignal = l2.map turnSignal →
      ∀ (d : ℚ) (n i : Nat) (acc : List (String × ℚ) × ℚ),
        ConversationContext.weightedLoop d n i l1 acc
          = ConversationContext.weightedLoop d n i l2 acc := by
  intro l1
  induction l1 with
  | nil =>
    intro l2 h d n i acc
    cases l2 with
    | nil => rfl
    | cons t2 l2' => simp at h
  | cons t l ih =>
    intro l2 h d n i acc
    cases l2 with
    | nil => simp at h
    | cons t2 l2' =>
      simp only [List.map_cons, List.cons.injEq] at h
      obtain ⟨hsig, htail⟩ := h
      have hlang : t.detected_language = t2.detected_language := congrArg Prod.fst hsig
      have hconf : t.confidence = t2.confidence := congrArg Prod.snd hsig
      obtain ⟨wc, tot⟩ := acc
      simp only [ConversationContext.weightedLoop]
      rw [hlang, hconf]
      cases hdl : t2.detected_language with
      | none => exact ih l2' htail d n (i + 1) (wc, tot)
      | some lang =>
        dsimp only
        by_cases hl : lang = "" ∨ lang = "unknown"
        · rw [if_pos hl, if_pos hl]
          exact ih l2' htail d n (i + 1) (wc, tot)
        · rw [if_neg hl, if_neg hl]
          exact ih l2' htail d n (i + 1) _

theorem language_distribution_signal_congr (c1 c2 : ConversationContext)
    (hd : c1.decay_factor = c2.decay_factor)
    (ht : c1.turns.map turnSignal = c2.turns.map turnSignal) :
    c1.language_distribution = c2.language_distribution := by
  unfold ConversationContext.language_distribution
  have hlen : c1.turns.length = c2.turns.length := by
    simpa using congrArg List.length ht
  have hnil : (c1.turns = []) ↔ (c2.turns = []) := by
    rw [← List.length_eq_zero, ← List.length_eq_zero, hlen]
  by_cases h1 : c1.turns = []
  · rw [if_pos h1, if_pos (hnil.mp h1)]
  · rw [if_neg h1, if_neg (fun h => h1 (hnil.mpr h)), hd, hlen,
      weightedLoop_signal_congr c1.turns c2.turns ht]

theorem takeWhile_signal_length :
    ∀ (l1 l2 : List ConversationTurn), l1.map turnSignal = l2.map turnSignal →
      ∀ (L : String),
        (l1.takeWhile (fun u => u.detected_language = some L)).length
          = (l2.takeWhile (fun u => u.detected_language = some L)).length := by
  intro l1
  induction l1 with
  | nil =>
    intro l2 h L
    cases l2 with
    | nil => rfl
    | cons t2 l2' => simp at h
  | cons t l ih =>
    intro l2 h L
    cases l2 with
    | nil => simp at h
    | cons t2 l2' =>
      simp only [List.map_cons, List.cons.injEq] at h
      obtain ⟨hsig, htail⟩ := h
      have hlang : t.detected_language = t2.detected_language := congrArg Prod.fst hsig
      rw [List.takeWhile_cons, List.takeWhile_cons, hlang]
      cases hb : decide (t2.detected_language = some L) with
      | false => simp
      | true => simp [ih l2' htail L]

theorem get_language_streak_signal_congr (c1 c2 : ConversationContext)
    (ht : c1.turns.map turnSignal = c2.turns.map turnSignal) :
    c1.get_language_streak = c2.get_language_streak := by
  unfold ConversationContext.get_language_streak
  have hrev : c1.turns.reverse.map turnSignal = c2.turns.reverse.map turnSignal := by
    rw [List.map_reverse, List.map_reverse, ht]
  cases h1 : c1.turns.reverse with
  | nil =>
    cases h2 : c2.turns.reverse with
    | nil => rfl
    | cons t2 r2 => rw [h1, h2] at hrev; simp at hrev
  | cons t1 r1 =>
    cases h2 : c2.turns.reverse with
    | nil => rw [h1, h2] at hrev; simp at hrev
    | cons t2 r2 =>
      rw [h1, h2] at hrev
      simp only [List.map_cons, List.cons.injEq] at hrev
      obtain ⟨hsig, htail⟩ := hrev
      have hlang : t1.detected_language = t2.detected_language := congrArg Prod.fst hsig
      dsimp only
      rw [hlang]
      cases hdl : t2.detected_language with
      | none => rfl
      | some lang =>
        dsimp only
        by_cases hl : lang = ""
        · rw [if_pos hl, if_pos hl]
        · rw [if_neg hl, if_neg hl]
          have hcount := takeWhile_signal_length (t1 :: r1) (t2 :: r2)
            (by simp [hsig, htail]) lang
          rw [hcount]

/-! ### Claim theorems -/

/-- **C3**: for every capacity `max_turns` and every sequence of `add_turn`
calls on a fresh context, the stored history is exactly the last `max_turns`
added turns in insertion order (oldest evicted first) and so never exceeds
`max_turns`; in particular `max_turns = 3` with 5 `add_turn` calls leaves
exactly the 3 most recent turns in order. -/
theorem c3_fifo_eviction :
    (∀ (m : Nat) (d : ℚ) (l : List ConversationTurn),
      ((⟨m, d, []⟩ : ConversationContext).addMany l).turns = lastN m l ∧
      ((⟨m, d, []⟩ : ConversationContext).addMany l).turns.length ≤ m) ∧
    (∀ t1 t2 t3 t4 t5 : ConversationTurn,
      ((⟨3, 9/10, []⟩ : ConversationContext).addMany [t1, t2, t3, t4, t5]).turns
        = [t3, t4, t5]) := by
  have key : ∀ (m : Nat) (d : ℚ) (l : List ConversationTurn),
      ((⟨m, d, []⟩ : ConversationContext).addMany l).turns = lastN m l := by
    intro m d l
    simpa using ConversationContext.addMany_turns ⟨m, d, []⟩ l (by simp)
  refine ⟨fun m d l => ⟨key m d l, ?_⟩, fun t1 t2 t3 t4 t5 => ?_⟩
  · rw [key m d l]; exact lastN_length_le _ _
  · rw [key 3 (9/10) [t1, t2, t3, t4, t5]]; rfl

/-- **C2** (spec-modelled serialization): for every `ConversationContext`
whose history respects its capacity, `from_dict (to_dict c)` reproduces the
same `dominant_language`, `max_turns`, `decay_factor` and turn count. -/
theorem c2_serialization_round_trip (c : ConversationContext)
    (h : c.turns.length ≤ c.max_turns) :
    (ConversationContext.from_dict c.to_dict).dominant_language = c.dominant_language ∧
    (ConversationContext.from_dict c.to_dict).max_turns = c.max_turns ∧
    (ConversationContext.from_dict c.to_dict).decay_factor = c.decay_factor ∧
    (ConversationContext.from_dict c.to_dict).turns.length = c.turns.length := by
  have hmaps : (c.to_dict.turns.map ConversationTurn.from_dict) = c.turns := by
    simp only [ConversationContext.to_dict, List.map_map]
    have : ConversationTurn.from_dict ∘ ConversationTurn.to_dict = id := by
      funext t
      rfl
    rw [this, List.map_id]
  have hc : ConversationContext.from_dict c.to_dict = c := by
    obtain ⟨m, d, t⟩ := c
    have h' : t.length ≤ m := h
    show ConversationContext.addMany ⟨m, d, []⟩ _ = _
    rw [hmaps]
    have h1 := ConversationContext.addMany_max_turns
      (⟨m, d, []⟩ : ConversationContext) t
    have h2 := ConversationContext.addMany_decay_factor
      (⟨m, d, []⟩ : ConversationContext) t
    have h3 := ConversationContext.addMany_turns
      (⟨m, d, []⟩ : ConversationContext) t (by simp)
    rw [List.nil_append] at h3
    calc ConversationContext.addMany ⟨m, d, []⟩ t
        = ⟨(ConversationContext.addMany ⟨m, d, []⟩ t).max_turns,
           (ConversationContext.addMany ⟨m, d, []⟩ t).decay_factor,
           (ConversationContext.addMany ⟨m, d, []⟩ t).turns⟩ := rfl
      _ = ⟨m, d, t⟩ := by rw [h1, h2, h3, lastN_of_le h']
  rw [hc]
  exact ⟨rfl, rfl, rfl, rfl⟩

/-- **C9**: a `ProperNounFilter` configured with strategy `"none"` is the
identity on every input text, whatever the NLTK configuration. -/
theorem c9_strategy_none_identity (u : Bool) (nf : String → String) (text : String) :
    ProperNounFilter.filter ⟨FilterStrategy.noFilter, u, nf⟩ text = text := rfl

/-- **C10**: `DetectionCache.get` returns `None` and bumps only the miss
counter whenever the key is absent; the hit counter is bumped exactly when a
stored non-`None` value is returned; and an entry whose stored value is
`None` is counted as a miss, indistinguishable at the `get` interface from an
absent key. -/
theorem c10_cache_get_counters {V : Type} (c : DetectionCache V) (k : String) :
    (c.lookup k = none →
      (c.get k).1 = none ∧ (c.get k).2.misses = c.misses + 1 ∧
        (c.get k).2.hits = c.hits) ∧
    ((c.get k).2.hits = c.hits + 1 ↔ ∃ v, (c.get k).1 = some v) ∧
    (∀ v, (c.get k).1 = some v →
      c.lookup k = some (some v) ∧ (c.get k).2.misses = c.misses) ∧
    (c.lookup k = some none →
      (c.get k).1 = none ∧ (c.get k).2.misses = c.misses + 1 ∧
        (c.get k).2.hits = c.hits) := by
  unfold DetectionCache.get DetectionCache.lookup
  cases hf : c.cache.find? (fun p => p.1 = k) with
  | none => simp
  | some e =>
    obtain ⟨k', v⟩ := e
    cases v with
    | none => simp
    | some x => simp

/-- **C4**: `get_language_streak` returns `(None, 0)` on an empty history or
when the newest turn has no detected language; otherwise it returns the newest
turn's language together with the length of the maximal newest-first run of
turns sharing that language, stopping at the first turn with a different or
absent language.  In particular 3 consecutive `"en"` turns give `("en", 3)`,
and one further turn of a different language gives streak 1 for the new
language. -/
theorem c4_language_streak (c : ConversationContext) :
    (c.turns = [] → c.get_language_streak = (none, 0)) ∧
    (∀ t rest, c.turns.reverse = t :: rest →
      ((t.detected_language = none ∨ t.detected_language = some "") →
        c.get_language_streak = (none, 0)) ∧
      (∀ L, t.detected_language = some L → L ≠ "" →
        ∃ a b, c.turns.reverse = a ++ b ∧
          (∀ u ∈ a, u.detected_language = some L) ∧
          (∀ u, b.head? = some u → u.detected_language ≠ some L) ∧
          c.get_language_streak = (some L, a.length))) ∧
    (∀ conf ts : ℚ,
      ((((⟨5, 9/10, []⟩ : ConversationContext).add_turn "one" (some "en") conf
          ts).add_turn "two" (some "en") conf ts).add_turn "three" (some "en")
          conf ts).get_language_streak = (some "en", 3)) ∧
    (∀ conf ts : ℚ,
      (((((⟨5, 9/10, []⟩ : ConversationContext).add_turn "one" (some "en") conf
          ts).add_turn "two" (some "en") conf ts).add_turn "three" (some "en")
          conf ts).add_turn "hola" (some "es") conf ts).get_language_streak
        = (some "es", 1)) := by
  refine ⟨?_, ?_, ?_, ?_⟩
  · intro h
    unfold ConversationContext.get_language_streak
    rw [h]
    simp
  · intro t rest hrev
    constructor
    · intro hfalsy
      unfold ConversationContext.get_language_streak
      rw [hrev]
      rcases hfalsy with h | h <;> simp [h]
    · intro L hL hne
      refine ⟨(t :: rest).takeWhile (fun u => u.detected_language = some L),
        (t :: rest).dropWhile (fun u => u.detected_language = some L),
        ?_, ?_, ?_, ?_⟩
      · rw [hrev, List.takeWhile_append_dropWhile]
      · intro u hu
        have := List.mem_takeWhile_imp hu
        exact of_decide_eq_true this
      · intro u hu
        have := head?_dropWhile_not _ _ u hu
        simpa using this
      · unfold ConversationContext.get_language_streak
        rw [hrev]
        simp [hL, hne]
  · intro conf ts
    simp +decide [ConversationContext.get_language_streak,
      ConversationContext.add_turn, lastN, List.takeWhile]
  · intro conf ts
    simp +decide [ConversationContext.get_language_streak,
      ConversationContext.add_turn, lastN, List.takeWhile]

/-- Witness for **C4**: the streak theorem applied to a concrete context whose
three newest turns are `"en"` turns following an `"fr"` turn. -/
theorem c4_language_streak_witness :
    exCtxStreak.turns.reverse
      = (⟨"c", some "en", 1/2, 3⟩ : ConversationTurn) ::
        [⟨"b", some "en", 1/2, 2⟩, ⟨"a", some "en", 1/2, 1⟩,
         ⟨"d", some "fr", 1/2, 0⟩] ∧
    ∃ a b, exCtxStreak.turns.reverse = a ++ b ∧
      (∀ u ∈ a, u.detected_language = some "en") ∧
      (∀ u, b.head? = some u → u.detected_language ≠ some "en") ∧
      exCtxStreak.get_language_streak = (some "en", a.length) :=
  ⟨rfl,
    ((c4_language_streak exCtxStreak).2.1 (⟨"c", some "en", 1/2, 3⟩ : ConversationTurn)
        [⟨"b", some "en", 1/2, 2⟩, ⟨"a", some "en", 1/2, 1⟩,
         ⟨"d", some "fr", 1/2, 0⟩] rfl).2 "en" rfl (by decide)⟩

/-- **C6**: `dominant_language` is `None` exactly when the distribution is
empty, and otherwise is a key of the distribution of maximal weight, the first
such key in the distribution's insertion order. -/
theorem c6_dominant_language (c : ConversationContext) :
    (c.dominant_language = none ↔ c.language_distribution = []) ∧
    (∀ k, c.dominant_language = some k → FirstMax c.language_distribution k) := by
  unfold ConversationContext.dominant_language
  cases hd : c.language_distribution with
  | nil => simp
  | cons e rest =>
    obtain ⟨k0, v0⟩ := e
    refine ⟨by simp, ?_⟩
    intro k hk
    simp only [Option.some.injEq] at hk
    obtain ⟨l1, w, l2, heq, h1, h2⟩ := maxKeyLoop_spec rest k0 v0
    rw [hk] at heq
    exact ⟨l1, w, l2, heq, h1, h2⟩

/-- Witness for **C6**: the dominant-language theorem applied to a concrete
context dominated by `"en"`. -/
theorem c6_dominant_language_witness :
    exCtxStreak.dominant_language = some "en" ∧
    FirstMax exCtxStreak.language_distribution "en" := by
  have hdom : exCtxStreak.dominant_language = some "en" := by
    norm_num +decide [exCtxStreak, ConversationContext.dominant_language,
      ConversationContext.language_distribution, ConversationContext.weightedLoop,
      dictAdd, ConversationContext.maxKeyLoop]
  exact ⟨hdom, (c6_dominant_language exCtxStreak).2 "en" hdom⟩

/-- **C7**: the derived operations `language_distribution`,
`dominant_language`, `get_language_streak` and `get_context_boost` depend only
on `max_turns`, `decay_factor` and the per-turn detected language and
confidence — never on turn texts or timestamps. -/
theorem c7_noninterference (c1 c2 : ConversationContext)
    (_hm : c1.max_turns = c2.max_turns) (hd : c1.decay_factor = c2.decay_factor)
    (ht : c1.turns.map turnSignal = c2.turns.map turnSignal) :
    c1.language_distribution = c2.language_distribution ∧
    c1.dominant_language = c2.dominant_language ∧
    c1.get_language_streak = c2.get_language_streak ∧
    ∀ lang, c1.get_context_boost lang = c2.get_context_boost lang := by
  have hdist := language_distribution_signal_congr c1 c2 hd ht
  have hstreak := get_language_streak_signal_congr c1 c2 ht
  refine ⟨hdist, ?_, hstreak, ?_⟩
  · unfold ConversationContext.dominant_language
    rw [hdist]
  · intro lang
    unfold ConversationContext.get_context_boost
    rw [hdist, hstreak]

/-- Witness for **C7**: two concrete contexts differing only in texts and
timestamps produce identical derived results. -/
theorem c7_noninterference_witness :
    (exCtxA.max_turns = exCtxB.max_turns ∧
      exCtxA.decay_factor = exCtxB.decay_factor ∧
      exCtxA.turns.map turnSignal = exCtxB.turns.map turnSignal) ∧
    (exCtxA.language_distribution = exCtxB.language_distribution ∧
      exCtxA.dominant_language = exCtxB.dominant_language ∧
      exCtxA.get_language_streak = exCtxB.get_language_streak ∧
      ∀ lang, exCtxA.get_context_boost lang = exCtxB.get_context_boost lang) :=
  ⟨⟨rfl, rfl, rfl⟩, c7_noninterference exCtxA exCtxB rfl rfl rfl⟩

theorem get_context_boost_eq (c : ConversationContext) (lang : String) :
    c.get_context_boost lang
      = match lookupVal c.language_distribution lang with
        | none => 0
        | some d => min (d * (15/100) + c.streakBonus lang) (3/10) := by
  unfold ConversationContext.get_context_boost ConversationContext.streakBonus
  cases hlv : lookupVal c.language_distribution lang with
  | none => rfl
  | some dd =>
    dsimp only
    by_cases hcond :
        (c.get_language_streak).1 = some lang ∧ 2 ≤ (c.get_language_streak).2
    · rw [if_pos hcond, if_pos hcond]
    · rw [if_neg hcond, if_neg hcond, add_zero]

/-- **C5**: with confidences in `[0,1]` (and the data model's
`decay_factor ∈ (0,1]`, spec §3), `get_context_boost(language)` is `0` when
the language is absent from the distribution, equals
`min(distribution[language] * 0.15 + streak_bonus, 0.3)` when present — the
streak bonus `min(streak_count * 0.02, 0.1)` applying only when the streak
language matches and the count is at least 2 — and always lies in
`[0, 0.3]`. -/
theorem c5_context_boost (c : ConversationContext) (lang : String)
    (hwf : c.WF) (hconf : ∀ t ∈ c.turns, 0 ≤ t.confidence ∧ t.confidence ≤ 1) :
    (0 ≤ c.get_context_boost lang ∧ c.get_context_boost lang ≤ 3/10) ∧
    (lookupVal c.language_distribution lang = none →
      c.get_context_boost lang = 0) ∧
    (∀ dd, lookupVal c.language_distribution lang = some dd →
      c.get_context_boost lang
        = min (dd * (15/100) + c.streakBonus lang) (3/10)) := by
  obtain ⟨hd0, _hd1⟩ := hwf
  have hconf' : ∀ t ∈ c.turns, 0 ≤ t.confidence := fun t ht => (hconf t ht).1
  have hb : 0 ≤ c.streakBonus lang := by
    unfold ConversationContext.streakBonus
    by_cases hcond :
        (c.get_language_streak).1 = some lang ∧ 2 ≤ (c.get_language_streak).2
    · rw [if_pos hcond]
      exact le_min (mul_nonneg (Nat.cast_nonneg _) (by norm_num)) (by norm_num)
    · rw [if_neg hcond]
  refine ⟨?_, ?_, ?_⟩
  · rw [get_context_boost_eq]
    cases hlv : lookupVal c.language_distribution lang with
    | none => exact ⟨le_refl 0, by norm_num⟩
    | some dd =>
      have hdd0 : 0 ≤ dd :=
        language_distribution_values_nonneg c (le_of_lt hd0) hconf'
          (lang, dd) (lookupVal_mem hlv)
      dsimp only
      constructor
      · exact le_min (add_nonneg (mul_nonneg hdd0 (by norm_num)) hb) (by norm_num)
      · exact min_le_right _ _
  · intro hlv
    rw [get_context_boost_eq, hlv]
  · intro dd hlv
    rw [get_context_boost_eq, hlv]

/-- Witness for **C5**: the boost theorem applied to a concrete context and
the language `"en"`. -/
theorem c5_context_boost_witness :
    (exCtxA.WF ∧ ∀ t ∈ exCtxA.turns, 0 ≤ t.confidence ∧ t.confidence ≤ 1) ∧
    ((0 ≤ exCtxA.get_context_boost "en" ∧
        exCtxA.get_context_boost "en" ≤ 3/10) ∧
      (lookupVal exCtxA.language_distribution "en" = none →
        exCtxA.get_context_boost "en" = 0) ∧
      (∀ dd, lookupVal exCtxA.language_distribution "en" = some dd →
        exCtxA.get_context_boost "en"
          = min (dd * (15/100) + exCtxA.streakBonus "en") (3/10))) := by
  have hwf : exCtxA.WF := by
    constructor <;> norm_num [exCtxA]
  have hcf : ∀ t ∈ exCtxA.turns, 0 ≤ t.confidence ∧ t.confidence ≤ 1 := by
    intro t ht
    simp only [exCtxA, List.mem_cons, List.mem_singleton] at ht
    rcases ht with rfl | rfl | h
    · constructor <;> norm_num
    · constructor <;> norm_num
    · simp at h
  exact ⟨⟨hwf, hcf⟩, c5_context_boost exCtxA "en" hwf hcf⟩

theorem enFr_dist (q : ℚ) (hq : 0 < q) :
    (enFrCtx q).language_distribution = [("en", 1/3), ("fr", 2/3)] := by
  have htot : (0:ℚ) < 0 + (1/2 : ℚ)^(2-1-0) * q + (1/2 : ℚ)^(2-1-1) * q := by
    norm_num
    linarith
  show (if (0:ℚ) < 0 + (1/2 : ℚ)^(2-1-0) * q + (1/2 : ℚ)^(2-1-1) * q then
      [("en", ((1/2 : ℚ)^(2-1-0) * q)
          / (0 + (1/2 : ℚ)^(2-1-0) * q + (1/2 : ℚ)^(2-1-1) * q)),
       ("fr", ((1/2 : ℚ)^(2-1-1) * q)
          / (0 + (1/2 : ℚ)^(2-1-0) * q + (1/2 : ℚ)^(2-1-1) * q))]
    else []) = [("en", 1/3), ("fr", 2/3)]
  rw [if_pos htot]
  have hq' : q ≠ 0 := ne_of_gt hq
  simp only [List.cons.injEq, Prod.mk.injEq]
  norm_num
  constructor
  · rw [div_eq_div_iff (by linarith) (by norm_num)]
    ring
  · rw [div_eq_div_iff (by linarith) (by norm_num)]
    ring

/-- **C1** (amended): for a `ConversationContext` (data model:
`decay_factor ∈ (0,1]`, spec §3) whose turns all carry non-empty detected
languages *other than the literal string `"unknown"`* and confidences in
`(0,1]`, `language_distribution` equals the specification's exponential
recency-weighting formula (`specDistribution`), its values sum to 1, and for
`ConversationContext(decay_factor=0.5)` with an `"en"` turn added before an
`"fr"` turn at the same positive confidence,
`distribution["fr"] > distribution["en"]`. -/
theorem c1_distribution_formula (c : ConversationContext) (q : ℚ) (hwf : c.WF)
    (hlang : ∀ t ∈ c.turns,
      ∃ lg, t.detected_language = some lg ∧ lg ≠ "" ∧ lg ≠ "unknown")
    (hconf : ∀ t ∈ c.turns, 0 < t.confidence ∧ t.confidence ≤ 1)
    (hq : 0 < q) :
    c.language_distribution = c.specDistribution ∧
    (c.turns ≠ [] → valsSum c.language_distribution = 1) ∧
    distVal (enFrCtx q).language_distribution "fr"
      > distVal (enFrCtx q).language_distribution "en" := by
  obtain ⟨hd0, _hd1⟩ := hwf
  have hunk : ∀ t ∈ c.turns, t.detected_language ≠ some "unknown" := by
    intro t ht hcontra
    obtain ⟨lg, hlg, _, hlg2⟩ := hlang t ht
    rw [hlg] at hcontra
    exact hlg2 (by injection hcontra)
  refine ⟨?_, ?_, ?_⟩
  · unfold ConversationContext.language_distribution
      ConversationContext.specDistribution
    by_cases h0 : c.turns = []
    · rw [if_pos h0, if_pos h0]
    · rw [if_neg h0, if_neg h0]
      dsimp only
      rw [specLoop_eq_weightedLoop c.decay_factor c.turns.length c.turns hunk 0 ([], 0)]
      obtain ⟨t, rest, hcons⟩ := List.exists_cons_of_ne_nil h0
      have htot :
          0 < (ConversationContext.weightedLoop c.decay_factor c.turns.length 0
            c.turns ([], 0)).2 := by
        rw [hcons]
        exact weightedLoop_tot_pos c.decay_factor hd0 (t :: rest).length t rest
          (hlang t (by rw [hcons]; exact List.mem_cons_self _ _))
          ((hconf t (by rw [hcons]; exact List.mem_cons_self _ _)).1)
          (fun u hu =>
            (hconf u (by rw [hcons]; exact List.mem_cons_of_mem _ hu)).1.le) 0
      rw [if_pos htot]
  · intro h0
    unfold ConversationContext.language_distribution
    rw [if_neg h0]
    dsimp only
    obtain ⟨t, rest, hcons⟩ := List.exists_cons_of_ne_nil h0
    have htot :
        0 < (ConversationContext.weightedLoop c.decay_factor c.turns.length 0
          c.turns ([], 0)).2 := by
      rw [hcons]
      exact weightedLoop_tot_pos c.decay_factor hd0 (t :: rest).length t rest
        (hlang t (by rw [hcons]; exact List.mem_cons_self _ _))
        ((hconf t (by rw [hcons]; exact List.mem_cons_self _ _)).1)
        (fun u hu =>
          (hconf u (by rw [hcons]; exact List.mem_cons_of_mem _ hu)).1.le) 0
    rw [if_pos htot, valsSum_map_div]
    have hsum :
        valsSum (ConversationContext.weightedLoop c.decay_factor c.turns.length 0
            c.turns ([], 0)).1
          = (ConversationContext.weightedLoop c.decay_factor c.turns.length 0
            c.turns ([], 0)).2 := by
      have := weightedLoop_valsSum c.decay_factor c.turns.length c.turns 0 [] 0
      simpa [valsSum] using this
    rw [hsum]
    exact div_self (ne_of_gt htot)
  · rw [enFr_dist q hq]
    have hfr : distVal [("en", (1:ℚ)/3), ("fr", 2/3)] "fr" = 2/3 := by
      simp +decide [distVal, lookupVal, List.find?]
    have hen : distVal [("en", (1:ℚ)/3), ("fr", 2/3)] "en" = 1/3 := by
      simp +decide [distVal, lookupVal, List.find?]
    rw [hfr, hen]
    norm_num

/-- Counterexample for **C1** as stated: `cexC1` has only non-empty detected
languages and confidences in `(0,1]` (and a well-formed decay factor), yet its
`language_distribution` differs from the claimed formula — a turn whose
detected language is the string `"unknown"` is excluded by the code but
counted by the formula. -/
theorem c1_counterexample :
    cexC1.WF ∧
    (∀ t ∈ cexC1.turns, ∃ lg, t.detected_language = some lg ∧ lg ≠ "") ∧
    (∀ t ∈ cexC1.turns, 0 < t.confidence ∧ t.confidence ≤ 1) ∧
    cexC1.language_distribution ≠ cexC1.specDistribution := by
  refine ⟨⟨by norm_num [cexC1], by norm_num [cexC1]⟩, ?_, ?_, ?_⟩
  · intro t ht
    simp only [cexC1, List.mem_cons, List.not_mem_nil, or_false] at ht
    rcases ht with rfl | rfl
    · exact ⟨"unknown", rfl, by decide⟩
    · exact ⟨"en", rfl, by decide⟩
  · intro t ht
    simp only [cexC1, List.mem_cons, List.not_mem_nil, or_false] at ht
    rcases ht with rfl | rfl
    · constructor <;> norm_num
    · constructor <;> norm_num
  · norm_num +decide [cexC1, ConversationContext.language_distribution,
      ConversationContext.specDistribution, ConversationContext.weightedLoop,
      specLoop, dictAdd]

/-- Witness for **C1**: the amended distribution theorem applied to a
concrete four-turn context and confidence `1/2`. -/
theorem c1_distribution_formula_witness :
    (exCtxStreak.WF ∧
      (∀ t ∈ exCtxStreak.turns,
        ∃ lg, t.detected_language = some lg ∧ lg ≠ "" ∧ lg ≠ "unknown") ∧
      (∀ t ∈ exCtxStreak.turns, 0 < t.confidence ∧ t.confidence ≤ 1) ∧
      (0:ℚ) < 1/2) ∧
    (exCtxStreak.language_distribution = exCtxStreak.specDistribution ∧
      (exCtxStreak.turns ≠ [] → valsSum exCtxStreak.language_distribution = 1) ∧
      distVal (enFrCtx (1/2)).language_distribution "fr"
        > distVal (enFrCtx (1/2)).language_distribution "en") := by
  have hwf : exCtxStreak.WF :=
    ⟨by norm_num [exCtxStreak], by norm_num [exCtxStreak]⟩
  have hlang : ∀ t ∈ exCtxStreak.turns,
      ∃ lg, t.detected_language = some lg ∧ lg ≠ "" ∧ lg ≠ "unknown" := by
    intro t ht
    simp only [exCtxStreak, List.mem_cons, List.not_mem_nil, or_false] at ht
    rcases ht with rfl | rfl | rfl | rfl
    · exact ⟨"fr", rfl, by decide, by decide⟩
    · exact ⟨"en", rfl, by decide, by decide⟩
    · exact ⟨"en", rfl, by decide, by decide⟩
    · exact ⟨"en", rfl, by decide, by decide⟩
  have hconf : ∀ t ∈ exCtxStreak.turns,
      0 < t.confidence ∧ t.confidence ≤ 1 := by
    intro t ht
    simp only [exCtxStreak, List.mem_cons, List.not_mem_nil, or_false] at ht
    rcases ht with rfl | rfl | rfl | rfl <;> exact ⟨by norm_num, by norm_num⟩
  exact ⟨⟨hwf, hlang, hconf, by norm_num⟩,
    c1_distribution_formula exCtxStreak (1/2) hwf hlang hconf (by norm_num)⟩

/-- **C8**: turns whose detected language is absent (`None`) or the string
`"unknown"` contribute nothing to `language_distribution` (replacing one by
another changes neither the distribution, nor `dominant_language`, nor any
`get_context_boost` value); a context whose turns are all such has an empty
distribution and no dominant language; `"unknown"` is never a distribution
key; and `"und"` — the value `add_turn` documents for failed detection — is
counted as an ordinary language. -/
theorem c8_unknown_none_turns (m : Nat) (d : ℚ) (pre post : List ConversationTurn)
    (t t' : ConversationTurn) (ht : droppedKind t) (ht' : droppedKind t') :
    ((⟨m, d, pre ++ t :: post⟩ : ConversationContext).language_distribution
        = (⟨m, d, pre ++ t' :: post⟩ : ConversationContext).language_distribution) ∧
    ((⟨m, d, pre ++ t :: post⟩ : ConversationContext).dominant_language
        = (⟨m, d, pre ++ t' :: post⟩ : ConversationContext).dominant_language) ∧
    (∀ lang, (⟨m, d, pre ++ t :: post⟩ : ConversationContext).get_context_boost lang
        = (⟨m, d, pre ++ t' :: post⟩ : ConversationContext).get_context_boost lang) ∧
    (∀ c : ConversationContext, (∀ u ∈ c.turns, droppedKind u) →
      c.language_distribution = [] ∧ c.dominant_language = none) ∧
    (∀ p ∈ (⟨m, d, pre ++ t :: post⟩ : ConversationContext).language_distribution,
      p.1 ≠ "unknown") ∧
    (∀ qc : ℚ, 0 < qc →
      ((⟨2, 9/10, []⟩ : ConversationContext).add_turn "mystery" (some "und")
          qc 0).language_distribution = [("und", 1)]) := by
  have hlen : (pre ++ t :: post).length = (pre ++ t' :: post).length := by simp
  have hwl : ∀ acc : List (String × ℚ) × ℚ,
      ConversationContext.weightedLoop d (pre ++ t' :: post).length 0
          (pre ++ t :: post) acc
        = ConversationContext.weightedLoop d (pre ++ t' :: post).length 0
          (pre ++ t' :: post) acc := by
    intro acc
    rw [weightedLoop_append, weightedLoop_append,
      weightedLoop_skip _ _ t ht, weightedLoop_skip _ _ t' ht']
  have hdist : (⟨m, d, pre ++ t :: post⟩ : ConversationContext).language_distribution
      = (⟨m, d, pre ++ t' :: post⟩ : ConversationContext).language_distribution := by
    unfold ConversationContext.language_distribution
    dsimp only
    rw [if_neg (show ¬(pre ++ t :: post = []) by simp),
      if_neg (show ¬(pre ++ t' :: post = []) by simp), hlen, hwl ([], 0)]
  refine ⟨hdist, ?_, ?_, ?_, ?_, ?_⟩
  · unfold ConversationContext.dominant_language
    rw [hdist]
  · intro lang
    rw [get_context_boost_eq, get_context_boost_eq, hdist]
    cases hlv : lookupVal
        (⟨m, d, pre ++ t' :: post⟩ :
          ConversationContext).language_distribution lang with
    | none => rfl
    | some dd =>
      dsimp only
      have hkeys := language_distribution_keys
        (⟨m, d, pre ++ t' :: post⟩ : ConversationContext) (lang, dd)
        (lookupVal_mem hlv)
      rw [c8_streakBonus_eq m d pre post t t' ht ht' lang hkeys.2]
  · intro c hc
    have hdist0 : c.language_distribution = [] := by
      unfold ConversationContext.language_distribution
      by_cases h0 : c.turns = []
      · rw [if_pos h0]
      · rw [if_neg h0]
        dsimp only
        rw [weightedLoop_all_dropped c.decay_factor c.turns.length c.turns hc 0
          ([], 0)]
        norm_num
    refine ⟨hdist0, ?_⟩
    unfold ConversationContext.dominant_language
    rw [hdist0]
  · intro p hp
    exact (language_distribution_keys _ p hp).2
  · intro qc hqc
    have htot : (0:ℚ) < 0 + (9/10 : ℚ)^(1-1-0) * qc := by
      norm_num
      linarith
    show (if (0:ℚ) < 0 + (9/10 : ℚ)^(1-1-0) * qc then
        [("und", ((9/10 : ℚ)^(1-1-0) * qc) / (0 + (9/10 : ℚ)^(1-1-0) * qc))]
      else []) = [("und", 1)]
    rw [if_pos htot]
    simp only [List.cons.injEq, Prod.mk.injEq]
    refine ⟨⟨trivial, ?_⟩, trivial⟩
    have hden : (0:ℚ) + (9/10 : ℚ)^(1-1-0) * qc = (9/10 : ℚ)^(1-1-0) * qc := by
      rw [zero_add]
    rw [hden, div_self]
    rw [show (1-1-0 : Nat) = 0 from rfl, pow_zero, one_mul]
    exact ne_of_gt hqc

/-- Witness for **C8**: replacing a concrete `"unknown"`-language turn by a
`None`-language turn between two `"en"` turns. -/
theorem c8_unknown_none_turns_witness :
    (droppedKind exDropT ∧ droppedKind exDropT') ∧
    (((⟨5, 9/10, exPre ++ exDropT :: exPost⟩ :
          ConversationContext).language_distribution
        = (⟨5, 9/10, exPre ++ exDropT' :: exPost⟩ :
          ConversationContext).language_distribution) ∧
      ((⟨5, 9/10, exPre ++ exDropT :: exPost⟩ :
          ConversationContext).dominant_language
        = (⟨5, 9/10, exPre ++ exDropT' :: exPost⟩ :
          ConversationContext).dominant_language) ∧
      (∀ lang, (⟨5, 9/10, exPre ++ exDropT :: exPost⟩ :
          ConversationContext).get_context_boost lang
        = (⟨5, 9/10, exPre ++ exDropT' :: exPost⟩ :
          ConversationContext).get_context_boost lang) ∧
      (∀ c : ConversationContext, (∀ u ∈ c.turns, droppedKind u) →
        c.language_distribution = [] ∧ c.dominant_language = none) ∧
      (∀ p ∈ (⟨5, 9/10, exPre ++ exDropT :: exPost⟩ :
          ConversationContext).language_distribution, p.1 ≠ "unknown") ∧
      (∀ qc : ℚ, 0 < qc →
        ((⟨2, 9/10, []⟩ : ConversationContext).add_turn "mystery" (some "und")
            qc 0).language_distribution = [("und", 1)])) :=
  ⟨⟨Or.inr rfl, Or.inl rfl⟩,
    c8_unknown_none_turns 5 (9/10) exPre exPost exDropT exDropT'
      (Or.inr rfl) (Or.inl rfl)⟩

/-- Witness for **C2**: the round-trip theorem applied to a concrete
two-turn context. -/
theorem c2_serialization_round_trip_witness :
    exCtxRound.turns.length ≤ exCtxRound.max_turns ∧
    ((ConversationContext.from_dict exCtxRound.to_dict).dominant_language
        = exCtxRound.dominant_language ∧
      (ConversationContext.from_dict exCtxRound.to_dict).max_turns
        = exCtxRound.max_turns ∧
      (ConversationContext.from_dict exCtxRound.to_dict).decay_factor
        = exCtxRound.decay_factor ∧
      (ConversationContext.from_dict exCtxRound.to_dict).turns.length
        = exCtxRound.turns.length) :=
  ⟨by decide, c2_serialization_round_trip exCtxRound (by decide)⟩

/-- Witness for **C10**: the cache theorem applied to a concrete cache, once
at an absent key and once at a key whose stored value is `None`. -/
theorem c10_cache_get_counters_witness :
    (exCache.lookup "zz" = none ∧
      ((exCache.get "zz").1 = none ∧
        (exCache.get "zz").2.misses = exCache.misses + 1 ∧
        (exCache.get "zz").2.hits = exCache.hits)) ∧
    (exCache.lookup "b" = some none ∧
      ((exCache.get "b").1 = none ∧
        (exCache.get "b").2.misses = exCache.misses + 1 ∧
        (exCache.get "b").2.hits = exCache.hits)) :=
  ⟨⟨by decide, (c10_cache_get_counters exCache "zz").1 (by decide)⟩,
   ⟨by decide, (c10_cache_get_counters exCache "b").2.2.2 (by decide)⟩⟩

end FastLangML
